import Mathlib

/-!
Verification of the mask-consistency engine of the active-learning annotation
platform (`Compute4Mask` in `src/client/dcp_client/utils/utils.py`).

Masks are 2D integer grids (numpy arrays in the source); background is `0` and
object ids are positive, so a grid is embedded as `List (List Nat)` in row-major
order.  `np.unique` returns the distinct values of an array in ascending order,
embedded here as `npUnique`.  Fancy-indexing reads such as
`labels_mask[instance_mask == id]` collect, in row-major order, the values of
one grid at the pixels where the other grid holds `id`; this is `valsAt`.
Fancy-indexing writes are pointwise updates over the zipped grids (`zipWith2` /
`mapG`).  External calls into skimage (`find_contours`, `polygon_perimeter`,
`measure.label`) are not part of this repository and are taken as oracle
parameters; an exception raised by them is modelled as `Option.none`.
-/

abbrev Grid := List (List Nat)

/-- Row-major flattening of a list of rows (`numpy` ravel order). -/
def flatL {α : Type} (L : List (List α)) : List α :=
  L.foldr (fun r acc => r ++ acc) []

def flattenG (A : Grid) : List Nat := flatL A

/-- Insert a value into an ascending duplicate-free list, keeping it so. -/
def insertU (x : Nat) : List Nat → List Nat
  | [] => [x]
  | y :: ys => if x < y then x :: y :: ys else if x = y then y :: ys else y :: insertU x ys

/-- Embeds `np.unique` on a 1D array: the distinct values in ascending order. -/
def npUnique (l : List Nat) : List Nat := l.foldr insertU []

theorem mem_insertU {a x : Nat} {l : List Nat} : a ∈ insertU x l ↔ a = x ∨ a ∈ l := by
  induction l with
  | nil => simp [insertU]
  | cons y ys ih =>
    by_cases h1 : x < y
    · simp [insertU, h1]
    · by_cases h2 : x = y
      · subst h2
        rw [insertU, if_neg h1, if_pos rfl]
        constructor
        · intro h; exact Or.inr h
        · rintro (h | h)
          · exact h ▸ List.mem_cons_self _ _
          · exact h
      · simp [insertU, h1, h2, ih]
        tauto

theorem sorted_insertU {x : Nat} {l : List Nat} (h : List.Sorted (· < ·) l) :
    List.Sorted (· < ·) (insertU x l) := by
  induction l with
  | nil => simp [insertU]
  | cons y ys ih =>
    rw [List.sorted_cons] at h
    by_cases h1 : x < y
    · rw [insertU]
      simp only [if_pos h1]
      rw [List.sorted_cons]
      refine ⟨?_, ?_⟩
      · intro b hb
        rcases List.mem_cons.mp hb with hb | hb
        · exact hb ▸ h1
        · exact lt_trans h1 (h.1 b hb)
      · rw [List.sorted_cons]; exact h
    · by_cases h2 : x = y
      · rw [insertU]; simp only [if_neg h1, if_pos h2]
        rw [List.sorted_cons]; exact h
      · have hyx : y < x := by omega
        rw [insertU]; simp only [if_neg h1, if_neg h2]
        rw [List.sorted_cons]
        refine ⟨?_, ih h.2⟩
        intro b hb
        rcases mem_insertU.mp hb with hb | hb
        · exact hb ▸ hyx
        · exact h.1 b hb

theorem mem_npUnique {a : Nat} {l : List Nat} : a ∈ npUnique l ↔ a ∈ l := by
  induction l with
  | nil => simp [npUnique]
  | cons x xs ih =>
    show a ∈ insertU x (npUnique xs) ↔ _
    rw [mem_insertU, ih]
    simp

theorem sorted_npUnique (l : List Nat) : List.Sorted (· < ·) (npUnique l) := by
  induction l with
  | nil => simp [npUnique]
  | cons x xs ih => exact sorted_insertU ih

theorem nodup_npUnique (l : List Nat) : (npUnique l).Nodup :=
  (sorted_npUnique l).imp (fun h => Nat.ne_of_lt h)

theorem sorted_zero_cons {L : List Nat} (hs : List.Sorted (· < ·) L) (h0 : 0 ∈ L) :
    ∃ t, L = 0 :: t := by
  cases L with
  | nil => simp at h0
  | cons y t =>
    rcases List.mem_cons.mp h0 with h | h
    · exact ⟨t, by rw [← h]⟩
    · exact absurd ((List.sorted_cons.mp hs).1 0 h) (Nat.not_lt_zero y)

theorem npUnique_replicate (n : Nat) (m : Nat) :
    npUnique (List.replicate (n + 1) m) = [m] := by
  induction n with
  | zero => simp [npUnique, insertU]
  | succ k ih =>
    show insertU m (npUnique (List.replicate (k + 1) m)) = [m]
    rw [ih, insertU]
    simp

theorem npUnique_eq_zero_iff {l : List Nat} (h : l ≠ []) :
    npUnique l = [0] ↔ ∀ v ∈ l, v = 0 := by
  constructor
  · intro hu v hv
    have : v ∈ npUnique l := mem_npUnique.mpr hv
    rw [hu] at this
    simpa using this
  · intro hall
    have h0 : 0 ∈ npUnique l := by
      rcases List.exists_mem_of_ne_nil l h with ⟨x, hx⟩
      have := hall x hx
      exact mem_npUnique.mpr (this ▸ hx)
    rcases sorted_zero_cons (sorted_npUnique l) h0 with ⟨t, ht⟩
    cases t with
    | nil => exact ht
    | cons b t' =>
      exfalso
      have hb : b ∈ npUnique l := by rw [ht]; simp
      have hb0 : b = 0 := hall b (mem_npUnique.mp hb)
      have hs := sorted_npUnique l
      rw [ht, List.sorted_cons] at hs
      have : (0 : Nat) < b := hs.1 b (by simp)
      omega

/-! Grid operations: pixel pairing, fancy-indexed reads, pointwise updates. -/

/-- The row-major list of `(value in A, value in B)` pixel pairs. -/
def pairs (A B : Grid) : List (Nat × Nat) :=
  flatL (List.zipWith List.zip A B)

/-- From a pixel-pair list, the first components of the pairs whose second
component is `id` (the read `A[B == id]`, in row-major order). -/
def selVals (id : Nat) (ps : List (Nat × Nat)) : List Nat :=
  ps.filterMap (fun p => if p.2 = id then some p.1 else none)

/-- Embeds the read `A[B == id]`: values of `A` at pixels where `B` holds `id`. -/
def valsAt (A B : Grid) (id : Nat) : List Nat :=
  selVals id (pairs A B)

/-- Pointwise binary update of two grids (a fancy-indexed write such as
`A[B == id] = v` is `zipWith2 (fun a b => if b = id then v else a) A B`). -/
def zipWith2 (f : Nat → Nat → Nat) (A B : Grid) : Grid :=
  List.zipWith (List.zipWith f) A B

/-- Pointwise unary update of a grid. -/
def mapG (f : Nat → Nat) (A : Grid) : Grid :=
  A.map (fun r => r.map f)

/-- Embeds `np.zeros_like`. -/
def zeroGrid (A : Grid) : Grid := mapG (fun _ => 0) A

/-- Two grids have the same shape: equal row counts and row lengths. -/
def sameShape (A B : Grid) : Prop :=
  A.map List.length = B.map List.length

instance (A B : Grid) : Decidable (sameShape A B) :=
  inferInstanceAs (Decidable (_ = _))

/-- Pixel read with numpy-style row-major indexing; out-of-range reads
default to the background value `0`. -/
def getPix (A : Grid) (i j : Nat) : Nat :=
  (A.getD i []).getD j 0

theorem sameShape_refl (A : Grid) : sameShape A A := rfl

theorem flatL_cons {α : Type} (r : List α) (L : List (List α)) :
    flatL (r :: L) = r ++ flatL L := rfl

theorem mem_flatL {α : Type} {a : α} {L : List (List α)} :
    a ∈ flatL L ↔ ∃ r ∈ L, a ∈ r := by
  induction L with
  | nil => simp [flatL]
  | cons r L ih =>
    rw [flatL_cons, List.mem_append, ih]
    simp

theorem zip_zipWith_left {f : Nat → Nat → Nat} (ra rb : List Nat) :
    List.zip (List.zipWith f ra rb) rb
      = (List.zip ra rb).map (fun p => (f p.1 p.2, p.2)) := by
  induction ra generalizing rb with
  | nil => simp
  | cons a ra ih =>
    cases rb with
    | nil => simp
    | cons b rb => simp [ih]

theorem pairs_zipWith2 (f : Nat → Nat → Nat) (A B : Grid) :
    pairs (zipWith2 f A B) B = (pairs A B).map (fun p => (f p.1 p.2, p.2)) := by
  induction A generalizing B with
  | nil => simp [pairs, zipWith2, flatL]
  | cons ra A ih =>
    cases B with
    | nil => simp [pairs, zipWith2, flatL]
    | cons rb B =>
      show flatL (List.zip (List.zipWith f ra rb) rb :: _) = _
      rw [flatL_cons, zip_zipWith_left]
      have : pairs (ra :: A) (rb :: B) = List.zip ra rb ++ pairs A B := rfl
      rw [this, List.map_append]
      exact congrArg _ (ih B)

theorem zip_map_right' {g : Nat → Nat} (ra rb : List Nat) :
    List.zip ra (rb.map g) = (List.zip ra rb).map (fun p => (p.1, g p.2)) := by
  induction ra generalizing rb with
  | nil => simp
  | cons a ra ih =>
    cases rb with
    | nil => simp
    | cons b rb => simp [ih]

theorem pairs_mapG_right (g : Nat → Nat) (A B : Grid) :
    pairs A (mapG g B) = (pairs A B).map (fun p => (p.1, g p.2)) := by
  induction A generalizing B with
  | nil => simp [pairs, mapG, flatL]
  | cons ra A ih =>
    cases B with
    | nil => simp [pairs, mapG, flatL]
    | cons rb B =>
      show flatL (List.zip ra (rb.map g) :: _) = _
      rw [flatL_cons, zip_map_right']
      have : pairs (ra :: A) (rb :: B) = List.zip ra rb ++ pairs A B := rfl
      rw [this, List.map_append]
      exact congrArg _ (ih B)

theorem map_snd_zip_eq {ra rb : List Nat} (h : ra.length = rb.length) :
    (List.zip ra rb).map Prod.snd = rb := by
  induction ra generalizing rb with
  | nil => cases rb with
    | nil => simp
    | cons b rb => simp at h
  | cons a ra ih =>
    cases rb with
    | nil => simp at h
    | cons b rb =>
      simp only [List.length_cons, Nat.succ.injEq] at h
      simp [ih h]

theorem map_snd_pairs {A B : Grid} (h : sameShape A B) :
    (pairs A B).map Prod.snd = flattenG B := by
  induction A generalizing B with
  | nil =>
    cases B with
    | nil => rfl
    | cons rb B => simp [sameShape] at h
  | cons ra A ih =>
    cases B with
    | nil => simp [sameShape] at h
    | cons rb B =>
      simp only [sameShape, List.map_cons, List.cons.injEq] at h
      have : pairs (ra :: A) (rb :: B) = List.zip ra rb ++ pairs A B := rfl
      rw [this, List.map_append, map_snd_zip_eq h.1, ih h.2]
      rfl

/-! `selVals` lemmas: how fancy-indexed reads evolve under pointwise writes. -/

theorem mem_selVals {a id : Nat} {ps : List (Nat × Nat)} (h : (a, id) ∈ ps) :
    a ∈ selVals id ps := by
  induction ps with
  | nil => simp at h
  | cons p ps ih =>
    rcases List.mem_cons.mp h with h | h
    · rw [← h]; simp [selVals]
    · by_cases hp : p.2 = id
      · simp [selVals, hp]
        exact Or.inr (by simpa [selVals] using ih h)
      · simpa [selVals, hp] using ih h

theorem selVals_cons (id : Nat) (p : Nat × Nat) (ps : List (Nat × Nat)) :
    selVals id (p :: ps)
      = if p.2 = id then p.1 :: selVals id ps else selVals id ps := by
  by_cases hp : p.2 = id
  · simp [selVals, List.filterMap_cons, hp]
  · simp [selVals, List.filterMap_cons, hp]

theorem selVals_map_write_ne {id id' m : Nat} (hne : id ≠ id') (ps : List (Nat × Nat)) :
    selVals id (ps.map (fun p => (if p.2 = id' then m else p.1, p.2))) = selVals id ps := by
  induction ps with
  | nil => rfl
  | cons p ps ih =>
    rw [List.map_cons, selVals_cons, selVals_cons, ih]
    by_cases hp : p.2 = id
    · have hp' : p.2 ≠ id' := fun h => hne (hp ▸ h)
      simp [hp, hp']
      exact fun h => absurd h hne
    · simp [hp]

theorem selVals_map_write_eq {id m : Nat} (ps : List (Nat × Nat)) :
    selVals id (ps.map (fun p => (if p.2 = id then m else p.1, p.2)))
      = List.replicate (selVals id ps).length m := by
  induction ps with
  | nil => rfl
  | cons p ps ih =>
    rw [List.map_cons, selVals_cons, selVals_cons, ih]
    by_cases hp : p.2 = id
    · simp [hp, List.replicate_succ]
    · simp [hp]

theorem selVals_map_snd {id : Nat} {g : Nat → Nat} (hg : ∀ b, g b = id ↔ b = id)
    (ps : List (Nat × Nat)) :
    selVals id (ps.map (fun p => (p.1, g p.2))) = selVals id ps := by
  induction ps with
  | nil => rfl
  | cons p ps ih =>
    rw [List.map_cons, selVals_cons, selVals_cons, ih]
    by_cases hp : p.2 = id
    · simp [hp, (hg p.2).mpr hp]
      exact (hg id).mpr rfl
    · have hg' : g p.2 ≠ id := fun h => hp ((hg p.2).mp h)
      simp [hp, hg']

theorem selVals_ne_nil {A B : Grid} {id : Nat} (h : sameShape A B)
    (hid : id ∈ flattenG B) : valsAt A B id ≠ [] := by
  have hsnd : (pairs A B).map Prod.snd = flattenG B := map_snd_pairs h
  rw [← hsnd] at hid
  rcases List.mem_map.mp hid with ⟨p, hp, hp2⟩
  have : p.1 ∈ selVals id (pairs A B) := by
    have : (p.1, id) ∈ pairs A B := by
      have : p = (p.1, id) := by
        cases p; simp at hp2 ⊢; exact hp2
      exact this ▸ hp
    exact mem_selVals this
  intro hnil
  rw [valsAt] at hnil
  rw [hnil] at this
  simp at this

/-! Pixel-level and shape lemmas for pointwise updates. -/

theorem getD_zipWith_row {f : Nat → Nat → Nat} (hf : f 0 0 = 0) :
    ∀ (ra rb : List Nat), ra.length = rb.length → ∀ j,
      (List.zipWith f ra rb).getD j 0 = f (ra.getD j 0) (rb.getD j 0) := by
  intro ra
  induction ra with
  | nil =>
    intro rb h j
    cases rb with
    | nil => simp [hf]
    | cons b rb => simp at h
  | cons a ra ih =>
    intro rb h j
    cases rb with
    | nil => simp at h
    | cons b rb =>
      simp only [List.length_cons, Nat.succ.injEq] at h
      cases j with
      | zero => simp
      | succ k => simpa using ih rb h k

theorem getD_map_row {g : Nat → Nat} (hg : g 0 = 0) (ra : List Nat) (j : Nat) :
    (ra.map g).getD j 0 = g (ra.getD j 0) := by
  induction ra generalizing j with
  | nil => simp [hg]
  | cons a ra ih =>
    cases j with
    | zero => simp
    | succ k => simpa using ih k

theorem getPix_zipWith2 {f : Nat → Nat → Nat} (hf : f 0 0 = 0) :
    ∀ (A B : Grid), sameShape A B → ∀ i j,
      getPix (zipWith2 f A B) i j = f (getPix A i j) (getPix B i j) := by
  intro A
  induction A with
  | nil =>
    intro B h i j
    cases B with
    | nil => simp [getPix, zipWith2, hf]
    | cons rb B => simp [sameShape] at h
  | cons ra A ih =>
    intro B h i j
    cases B with
    | nil => simp [sameShape] at h
    | cons rb B =>
      simp only [sameShape, List.map_cons, List.cons.injEq] at h
      cases i with
      | zero =>
        show (List.zipWith f ra rb).getD j 0 = _
        exact getD_zipWith_row hf ra rb h.1 j
      | succ k => exact ih B h.2 k j

theorem getPix_mapG {g : Nat → Nat} (hg : g 0 = 0) (A : Grid) (i j : Nat) :
    getPix (mapG g A) i j = g (getPix A i j) := by
  induction A generalizing i with
  | nil => simp [getPix, mapG, hg]
  | cons ra A ih =>
    cases i with
    | zero => exact getD_map_row hg ra j
    | succ k => exact ih k

theorem getPix_zeroGrid (A : Grid) (i j : Nat) : getPix (zeroGrid A) i j = 0 :=
  getPix_mapG rfl A i j

theorem getPix_ne_zero_mem {A : Grid} {i j : Nat} (h : getPix A i j ≠ 0) :
    getPix A i j ∈ flattenG A := by
  induction A generalizing i with
  | nil => simp [getPix] at h
  | cons ra A ih =>
    cases i with
    | zero =>
      have hj : ra.getD j 0 ∈ ra := by
        have h' : ra.getD j 0 ≠ 0 := h
        by_cases hb : j < ra.length
        · rw [List.getD_eq_getElem _ _ hb]
          exact List.getElem_mem hb
        · rw [List.getD_eq_default _ _ (Nat.le_of_not_lt hb)] at h'
          exact absurd rfl h'
      show ra.getD j 0 ∈ flatL (ra :: A)
      rw [flatL_cons, List.mem_append]
      exact Or.inl hj
    | succ k =>
      show getPix A k j ∈ flatL (ra :: A)
      rw [flatL_cons, List.mem_append]
      exact Or.inr (ih (i := k) h)

theorem shape_zipWith2 (f : Nat → Nat → Nat) {A B : Grid} (h : sameShape A B) :
    sameShape (zipWith2 f A B) B := by
  induction A generalizing B with
  | nil =>
    cases B with
    | nil => rfl
    | cons rb B => simp [sameShape] at h
  | cons ra A ih =>
    cases B with
    | nil => simp [sameShape] at h
    | cons rb B =>
      simp only [sameShape, List.map_cons, List.cons.injEq] at h
      show List.map List.length (List.zipWith f ra rb :: zipWith2 f A B)
            = List.map List.length (rb :: B)
      rw [List.map_cons, List.map_cons, List.length_zipWith, h.1, Nat.min_self]
      exact congrArg _ (ih h.2)

theorem shape_mapG (g : Nat → Nat) (A : Grid) : sameShape (mapG g A) A := by
  induction A with
  | nil => rfl
  | cons ra A ih =>
    show List.map List.length (ra.map g :: mapG g A) = List.map List.length (ra :: A)
    rw [List.map_cons, List.map_cons, List.length_map]
    exact congrArg _ ih

theorem shape_zeroGrid (A : Grid) : sameShape (zeroGrid A) A := shape_mapG _ A

theorem sameShape_trans {A B C : Grid} (h1 : sameShape A B) (h2 : sameShape B C) :
    sameShape A C := h1.trans h2

theorem zipWith_left_id {f : Nat → Nat → Nat} :
    ∀ (ra rb : List Nat), ra.length = rb.length →
      (∀ p ∈ List.zip ra rb, f p.1 p.2 = p.1) → List.zipWith f ra rb = ra := by
  intro ra
  induction ra with
  | nil => intro rb _ _; simp
  | cons a ra ih =>
    intro rb h hface
    cases rb with
    | nil => simp at h
    | cons b rb =>
      simp only [List.length_cons, Nat.succ.injEq] at h
      rw [List.zipWith_cons_cons]
      have h1 : f a b = a := hface (a, b) (by simp)
      rw [h1, ih rb h (fun p hp => hface p (List.mem_cons_of_mem _ hp))]

/-- A pointwise write that changes nothing produces the same grid. -/
theorem zipWith2_id {f : Nat → Nat → Nat} {A B : Grid} (h : sameShape A B)
    (hface : ∀ p ∈ pairs A B, f p.1 p.2 = p.1) : zipWith2 f A B = A := by
  induction A generalizing B with
  | nil =>
    cases B with
    | nil => rfl
    | cons rb B => simp [sameShape] at h
  | cons ra A ih =>
    cases B with
    | nil => simp [sameShape] at h
    | cons rb B =>
      simp only [sameShape, List.map_cons, List.cons.injEq] at h
      show List.zipWith f ra rb :: zipWith2 f A B = ra :: A
      have hrow : List.zipWith f ra rb = ra := by
        refine zipWith_left_id ra rb h.1 (fun p hp => hface p ?_)
        show p ∈ flatL (List.zip ra rb :: _)
        rw [flatL_cons, List.mem_append]
        exact Or.inl hp
      rw [hrow, ih h.2 (fun p hp => hface p (by
        show p ∈ flatL (List.zip ra rb :: _)
        rw [flatL_cons, List.mem_append]
        exact Or.inr hp))]

theorem mapG_comp (f g : Nat → Nat) (A : Grid) :
    mapG f (mapG g A) = mapG (fun a => f (g a)) A := by
  simp [mapG, List.map_map, Function.comp]

theorem mapG_congr {f g : Nat → Nat} (h : ∀ a, f a = g a) (A : Grid) :
    mapG f A = mapG g A := by
  simp only [mapG]
  exact List.map_congr_left (fun r _ => List.map_congr_left (fun a _ => h a))

theorem mapG_id (A : Grid) : mapG (fun a => a) A = A := by
  simp [mapG]

theorem flattenG_mapG (g : Nat → Nat) (A : Grid) :
    flattenG (mapG g A) = (flattenG A).map g := by
  induction A with
  | nil => rfl
  | cons ra A ih =>
    show flatL (ra.map g :: mapG g A) = (flatL (ra :: A)).map g
    rw [flatL_cons, flatL_cons, List.map_append]
    exact congrArg _ ih

theorem zipWith2_congr {f g : Nat → Nat → Nat} (h : ∀ a b, f a b = g a b) (A B : Grid) :
    zipWith2 f A B = zipWith2 g A B := by
  have : f = g := funext (fun a => funext (fun b => h a b))
  rw [this]

theorem zipWith_right_absorb {f g : Nat → Nat → Nat} :
    ∀ (ra rb : List Nat),
      List.zipWith f (List.zipWith g ra rb) rb
        = List.zipWith (fun a b => f (g a b) b) ra rb := by
  intro ra
  induction ra with
  | nil => intro rb; simp
  | cons a ra ih =>
    intro rb
    cases rb with
    | nil => simp
    | cons b rb => simp [ih]

/-- Two successive pointwise writes against the same right-hand grid compose. -/
theorem zipWith2_comp (f g : Nat → Nat → Nat) (A B : Grid) :
    zipWith2 f (zipWith2 g A B) B = zipWith2 (fun a b => f (g a b) b) A B := by
  induction A generalizing B with
  | nil => simp [zipWith2]
  | cons ra A ih =>
    cases B with
    | nil => simp [zipWith2]
    | cons rb B =>
      show List.zipWith f (List.zipWith g ra rb) rb :: _ = _
      rw [zipWith_right_absorb]
      show _ :: zipWith2 f (zipWith2 g A B) B = _
      rw [ih B]
      rfl

/-! Majority vote: `vals, counts = np.unique(arr, return_counts=True)` followed
by `vals[np.argmax(counts)]`.  `np.argmax` returns the FIRST index attaining
the maximum, and `np.unique` enumerates values in ascending order, so on a tie
the smallest value wins. -/

/-- Left-to-right scan keeping the first maximum of `c` (the `np.argmax` rule). -/
def argmaxScan (c : Nat → Nat) (b : Nat) : List Nat → Nat
  | [] => b
  | v :: vs => if c v > c b then argmaxScan c v vs else argmaxScan c b vs

/-- The majority value of a list of class values, exactly as the source
computes it; on the empty list (where numpy would raise) it returns `0`. -/
def majority (l : List Nat) : Nat :=
  match npUnique l with
  | [] => 0
  | v :: vs => argmaxScan (fun x => l.count x) v vs

theorem argmaxScan_spec (c : Nat → Nat) :
    ∀ (L : List Nat) (b : Nat), List.Sorted (· ≤ ·) (b :: L) →
      (argmaxScan c b L = b ∨ argmaxScan c b L ∈ L)
      ∧ (∀ x ∈ b :: L, c x ≤ c (argmaxScan c b L))
      ∧ (∀ x ∈ b :: L, c x = c (argmaxScan c b L) → argmaxScan c b L ≤ x) := by
  intro L
  induction L with
  | nil =>
    intro b _
    refine ⟨Or.inl rfl, ?_, ?_⟩
    · intro x hx; rw [List.mem_singleton.mp hx]; exact le_refl _
    · intro x hx _
      rw [List.mem_singleton.mp hx]
      exact Nat.le_refl b
  | cons v vs ih =>
    intro b hs
    rw [List.sorted_cons] at hs
    by_cases hcv : c v > c b
    · have hs' : List.Sorted (· ≤ ·) (v :: vs) := hs.2
      have spec := ih v hs'
      rw [argmaxScan, if_pos hcv]
      refine ⟨?_, ?_, ?_⟩
      · rcases spec.1 with h | h
        · exact Or.inr (by rw [h]; exact List.mem_cons_self _ _)
        · exact Or.inr (List.mem_cons_of_mem _ h)
      · intro x hx
        rcases List.mem_cons.mp hx with hx | hx
        · subst hx
          have hv : c v ≤ c (argmaxScan c v vs) := spec.2.1 v (List.mem_cons_self _ _)
          omega
        · exact spec.2.1 x hx
      · intro x hx hcx
        rcases List.mem_cons.mp hx with hx | hx
        · exfalso
          subst hx
          have hv : c v ≤ c (argmaxScan c v vs) := spec.2.1 v (List.mem_cons_self _ _)
          omega
        · exact spec.2.2 x hx hcx
    · have hble : ∀ x ∈ vs, b ≤ x := by
        intro x hx
        exact hs.1 x (List.mem_cons_of_mem _ hx)
      have hs' : List.Sorted (· ≤ ·) (b :: vs) := by
        rw [List.sorted_cons]
        exact ⟨hble, (List.sorted_cons.mp hs.2).2⟩
      have spec := ih b hs'
      rw [argmaxScan, if_neg hcv]
      refine ⟨?_, ?_, ?_⟩
      · rcases spec.1 with h | h
        · exact Or.inl h
        · exact Or.inr (List.mem_cons_of_mem _ h)
      · intro x hx
        rcases List.mem_cons.mp hx with hx | hx
        · subst hx
          exact spec.2.1 x (List.mem_cons_self _ _)
        · rcases List.mem_cons.mp hx with hx | hx
          · subst hx
            have hb : c b ≤ c (argmaxScan c b vs) := spec.2.1 b (List.mem_cons_self _ _)
            omega
          · exact spec.2.1 x (List.mem_cons_of_mem _ hx)
      · intro x hx hcx
        rcases List.mem_cons.mp hx with hx | hx
        · subst hx
          exact spec.2.2 x (List.mem_cons_self _ _) hcx
        · rcases List.mem_cons.mp hx with hx | hx
          · subst hx
            have hb : c b ≤ c (argmaxScan c b vs) := spec.2.1 b (List.mem_cons_self _ _)
            have hbeq : c b = c (argmaxScan c b vs) := by omega
            have hrb : argmaxScan c b vs ≤ b := spec.2.2 b (List.mem_cons_self _ _) hbeq
            exact le_trans hrb (hs.1 x (List.mem_cons_self _ _))
          · exact spec.2.2 x (List.mem_cons_of_mem _ hx) hcx

theorem majority_spec {l : List Nat} (h : l ≠ []) :
    majority l ∈ l
    ∧ (∀ v ∈ l, l.count v ≤ l.count (majority l))
    ∧ (∀ v ∈ l, l.count v = l.count (majority l) → majority l ≤ v) := by
  rcases List.exists_mem_of_ne_nil l h with ⟨x, hx⟩
  have hxu : x ∈ npUnique l := mem_npUnique.mpr hx
  rcases hu : npUnique l with _ | ⟨v, vs⟩
  · rw [hu] at hxu; simp at hxu
  · have hsorted : List.Sorted (· ≤ ·) (v :: vs) := by
      have := sorted_npUnique l
      rw [hu] at this
      exact this.imp (fun h => le_of_lt h)
    have spec := argmaxScan_spec (fun x => l.count x) vs v hsorted
    have hmaj : majority l = argmaxScan (fun x => l.count x) v vs := by
      rw [majority, hu]
    rw [hmaj]
    refine ⟨?_, ?_, ?_⟩
    · have hmem : argmaxScan (fun x => l.count x) v vs ∈ v :: vs := by
        rcases spec.1 with h' | h'
        · rw [h']
          exact List.mem_cons_self _ _
        · exact List.mem_cons_of_mem _ h'
      have : argmaxScan (fun x => l.count x) v vs ∈ npUnique l := hu ▸ hmem
      exact mem_npUnique.mp this
    · intro w hw
      have hwu : w ∈ v :: vs := hu ▸ mem_npUnique.mpr hw
      exact spec.2.1 w hwu
    · intro w hw hcw
      have hwu : w ∈ v :: vs := hu ▸ mem_npUnique.mpr hw
      exact spec.2.2 w hwu hcw

theorem majority_replicate {n : Nat} (m : Nat) (h : n ≠ 0) :
    majority (List.replicate n m) = m := by
  rcases Nat.exists_eq_succ_of_ne_zero h with ⟨k, hk⟩
  subst hk
  rw [majority, npUnique_replicate]
  rfl

/-! The mask-manipulation methods of `Compute4Mask`, translated line by line
from `src/client/dcp_client/utils/utils.py`. -/

namespace Compute4Mask

/-- Source `get_unique_objects`: `return list(np.unique(active_mask)[1:])`.
Note that the slice `[1:]` drops the FIRST (smallest) unique value, which is
the background `0` only when the mask actually contains a `0` pixel. -/
def get_unique_objects (active_mask : Grid) : List Nat :=
  (npUnique (flattenG active_mask)).drop 1

/-- One iteration of the `add_contour` loop: `labels_mask[instance_mask == id]
= class_id` where `class_id` is the majority class value at the object's
pixels in the current `labels_mask`. -/
def assignId (labels_mask instance_mask : Grid) (instance_id : Nat) : Grid :=
  zipWith2
    (fun c i =>
      if i = instance_id then majority (valsAt labels_mask instance_mask instance_id) else c)
    labels_mask instance_mask

/-- Source `add_contour`: for each object id of `get_unique_objects`, in
order, reassign every pixel of that object the majority class value found at
the object's pixels (the in-place mutation of `labels_mask` is a left fold). -/
def add_contour (labels_mask instance_mask : Grid) : Grid :=
  (get_unique_objects instance_mask).foldl
    (fun acc instance_id => assignId acc instance_mask instance_id) labels_mask

/-- One iteration of the `compute_new_instance_mask` loop: if the class values
at the object's pixels are exactly `{0}` (`len(unique)==1 and unique[0]==0`),
zero the object out of the instance mask. -/
def cnimStep (labels_mask : Grid) (acc : Grid) (instance_id : Nat) : Grid :=
  if (npUnique (valsAt labels_mask acc instance_id)).length = 1
      ∧ (npUnique (valsAt labels_mask acc instance_id)).headD 0 = 0 then
    mapG (fun a => if a = instance_id then 0 else a) acc
  else acc

/-- Source `compute_new_instance_mask`: delete every object whose pixels have
all been recolored to background in the edited class mask. -/
def compute_new_instance_mask (labels_mask instance_mask : Grid) : Grid :=
  (get_unique_objects instance_mask).foldl (cnimStep labels_mask) instance_mask

/-- Value written for one object id by `compute_new_labels_mask`: the id
itself for a newly drawn object; the unique prior class value if only one is
present at the object's (edited) pixels; otherwise the majority class value at
the object's original pixels. -/
def newVal (labels_mask instance_mask original_instance_mask : Grid)
    (old_instances : List Nat) (instance_id : Nat) : Nat :=
  if instance_id ∈ old_instances then
    if (npUnique (valsAt labels_mask instance_mask instance_id)).length = 1 then
      (npUnique (valsAt labels_mask instance_mask instance_id)).headD 0
    else majority (valsAt labels_mask original_instance_mask instance_id)
  else instance_id

/-- One iteration of the `compute_new_labels_mask` loop (background skipped). -/
def cnlmStep (labels_mask instance_mask original_instance_mask : Grid)
    (old_instances : List Nat) (acc : Grid) (instance_id : Nat) : Grid :=
  if instance_id = 0 then acc
  else
    zipWith2
      (fun a b =>
        if b = instance_id then
          newVal labels_mask instance_mask original_instance_mask old_instances instance_id
        else a)
      acc instance_mask

/-- Source `compute_new_labels_mask(labels_mask, instance_mask,
original_instance_mask, old_instances)`: rebuild the class mask from a zeroed
grid, per instance id present in the edited `instance_mask`. -/
def compute_new_labels_mask (labels_mask instance_mask original_instance_mask : Grid)
    (old_instances : List Nat) : Grid :=
  (npUnique (flattenG instance_mask)).foldl
    (cnlmStep labels_mask instance_mask original_instance_mask old_instances)
    (zeroGrid labels_mask)

/-- Boolean mask `A == id` fed to the external connected-component labeller. -/
def binMask (A : Grid) (id : Nat) : List (List Bool) :=
  A.map (fun r => r.map (fun v => decide (v = id)))

/-- One iteration of the `assert_consistent_labels` loop over the state
`(user_annot_error, mask_mismatch_error, faulty_ids_annot,
faulty_ids_missmatch)`.  `labelCC` is skimage's `measure.label` (external). -/
def aclStep (labelCC : List (List Bool) → Grid) (instance_mask class_mask : Grid)
    (st : Bool × Bool × List Nat × List Nat) (instance_id : Nat) :
    Bool × Bool × List Nat × List Nat :=
  match st with
  | (ae, me, la, lm) =>
    let st1 :=
      if (npUnique (flattenG (labelCC (binMask instance_mask instance_id)))).length > 2 then
        (true, me, la ++ [instance_id], lm)
      else (ae, me, la, lm)
    if (npUnique (valsAt class_mask instance_mask instance_id)).length > 1 then
      (st1.1, true, st1.2.2.1, st1.2.2.2 ++ [instance_id])
    else st1

/-- Source `assert_consistent_labels(mask)` with `instance_mask, class_mask =
mask[0], mask[1]`; returns `(user_annot_error, mask_mismatch_error,
faulty_ids_annot, faulty_ids_missmatch)`. -/
def assert_consistent_labels (labelCC : List (List Bool) → Grid) (mask : Grid × Grid) :
    Bool × Bool × List Nat × List Nat :=
  (get_unique_objects mask.1).foldl (aclStep labelCC mask.1 mask.2) (false, false, [], [])

/-- Binary single-object mask built by `get_contours`
(`single_obj_mask[instance_mask == instance_id] = 1`). -/
def binNat (A : Grid) (id : Nat) : Grid :=
  mapG (fun v => if v = id then 1 else 0) A

/-- First contour attaining the maximal size, exactly as
`contour_sizes.index(max(contour_sizes))` picks it (first index of the max). -/
def pickBig {α : Type} (size : α → Nat) (b : α) : List α → α
  | [] => b
  | x :: xs => if size x > size b then pickBig size x xs else pickBig size b xs

/-- Contour selection of `get_contours`: with more than one contour keep the
longest (first on ties); otherwise `contours[0]`, whose failure on an empty
list (IndexError, caught by the bare `except`) is `none`. -/
def pickContour {α : Type} (size : α → Nat) (cs : List α) : Option α :=
  if cs.length > 1 then
    match cs with
    | [] => none
    | c :: rest => some (pickBig size c rest)
  else cs.head?

/-- Body of the `try` block of `get_contours` for one object id, as a function
to the traced perimeter pixels.  `fc` abstracts skimage's `find_contours` and
`pp` abstracts `polygon_perimeter` (both external); `none` models a raised
exception anywhere in the block. -/
def traceObj {α : Type} (fc : Grid → Option (List α)) (size : α → Nat)
    (pp : α → Option (List (Nat × Nat))) (instance_mask : Grid) (instance_id : Nat) :
    Option (List (Nat × Nat)) :=
  match fc (binNat instance_mask instance_id) with
  | none => none
  | some contours =>
    match pickContour size contours with
    | none => none
    | some contour => pp contour

/-- Write a single pixel (out-of-range writes change nothing). -/
def setPix (A : Grid) (i j v : Nat) : Grid :=
  A.set i ((A.getD i []).set j v)

/-- Embeds the write `contour_mask[rr, cc] = instance_id`. -/
def writePts (A : Grid) (pts : List (Nat × Nat)) (v : Nat) : Grid :=
  pts.foldl (fun g p => setPix g p.1 p.2 v) A

/-- One iteration of the `get_contours` loop: on a tracing failure the
`except` branch only prints and continues, leaving the contour mask as it
was. -/
def gcStep (t : Nat → Option (List (Nat × Nat))) (contour_mask : Grid)
    (instance_id : Nat) : Grid :=
  match t instance_id with
  | none => contour_mask
  | some pts => writePts contour_mask pts instance_id

/-- Source `get_contours`: draw each object's traced boundary onto a zeroed
grid, skipping objects whose tracing raises. -/
def get_contours {α : Type} (fc : Grid → Option (List α)) (size : α → Nat)
    (pp : α → Option (List (Nat × Nat))) (instance_mask : Grid) : Grid :=
  (get_unique_objects instance_mask).foldl
    (gcStep (traceObj fc size pp instance_mask)) (zeroGrid instance_mask)

end Compute4Mask

/-! Properties of `get_unique_objects`. -/

theorem gup_subset_flatten {mask : Grid} {a : Nat}
    (h : a ∈ Compute4Mask.get_unique_objects mask) : a ∈ flattenG mask :=
  mem_npUnique.mp (List.mem_of_mem_drop h)

theorem sorted_gup (mask : Grid) :
    List.Sorted (· < ·) (Compute4Mask.get_unique_objects mask) := by
  unfold Compute4Mask.get_unique_objects
  rcases hu : npUnique (flattenG mask) with _ | ⟨y, t⟩
  · simp
  · have := sorted_npUnique (flattenG mask)
    rw [hu, List.sorted_cons] at this
    simpa using this.2

theorem nodup_gup (mask : Grid) : (Compute4Mask.get_unique_objects mask).Nodup :=
  (sorted_gup mask).imp (fun h => Nat.ne_of_lt h)

theorem zero_not_mem_gup (mask : Grid) : 0 ∉ Compute4Mask.get_unique_objects mask := by
  unfold Compute4Mask.get_unique_objects
  rcases hu : npUnique (flattenG mask) with _ | ⟨y, t⟩
  · simp
  · intro h0
    have := sorted_npUnique (flattenG mask)
    rw [hu, List.sorted_cons] at this
    have := this.1 0 (by simpa using h0)
    exact Nat.not_lt_zero y this

theorem mem_gup {mask : Grid} (h0 : 0 ∈ flattenG mask) {a : Nat} :
    a ∈ Compute4Mask.get_unique_objects mask ↔ a ∈ flattenG mask ∧ a ≠ 0 := by
  have h0u : 0 ∈ npUnique (flattenG mask) := mem_npUnique.mpr h0
  rcases sorted_zero_cons (sorted_npUnique (flattenG mask)) h0u with ⟨t, ht⟩
  have hsorted := sorted_npUnique (flattenG mask)
  rw [ht, List.sorted_cons] at hsorted
  unfold Compute4Mask.get_unique_objects
  rw [ht]
  simp only [List.drop_succ_cons, List.drop_zero]
  constructor
  · intro hat
    refine ⟨mem_npUnique.mp (ht ▸ List.mem_cons_of_mem _ hat), ?_⟩
    intro he
    exact Nat.not_lt_zero 0 (he ▸ hsorted.1 a hat)
  · rintro ⟨haf, hanz⟩
    have : a ∈ npUnique (flattenG mask) := mem_npUnique.mpr haf
    rw [ht] at this
    rcases List.mem_cons.mp this with h | h
    · exact absurd h hanz
    · exact h

/-! Evolution of `valsAt` under the `add_contour` fold. -/

theorem valsAt_assignId_ne {C I : Grid} {id id' : Nat} (h : id ≠ id') :
    valsAt (Compute4Mask.assignId C I id') I id = valsAt C I id := by
  unfold Compute4Mask.assignId valsAt
  rw [pairs_zipWith2]
  exact selVals_map_write_ne h (pairs C I)

theorem valsAt_assignId_eq (C I : Grid) (id : Nat) :
    valsAt (Compute4Mask.assignId C I id) I id
      = List.replicate (valsAt C I id).length (majority (valsAt C I id)) := by
  unfold Compute4Mask.assignId valsAt
  rw [pairs_zipWith2]
  exact selVals_map_write_eq (pairs C I)

theorem acFold_valsAt_not_mem (I : Grid) {id : Nat} :
    ∀ (ids : List Nat) (C : Grid), id ∉ ids →
      valsAt (ids.foldl (fun acc i => Compute4Mask.assignId acc I i) C) I id
        = valsAt C I id := by
  intro ids
  induction ids with
  | nil => intro C _; rfl
  | cons i rest ih =>
    intro C h
    rw [List.foldl_cons, ih _ (fun hm => h (List.mem_cons_of_mem _ hm))]
    exact valsAt_assignId_ne (fun he => h (he ▸ List.mem_cons_self _ _))

theorem acFold_valsAt_mem (I : Grid) {id : Nat} :
    ∀ (ids : List Nat) (C : Grid), ids.Nodup → id ∈ ids →
      valsAt (ids.foldl (fun acc i => Compute4Mask.assignId acc I i) C) I id
        = List.replicate (valsAt C I id).length (majority (valsAt C I id)) := by
  intro ids
  induction ids with
  | nil => intro C _ h; simp at h
  | cons i rest ih =>
    intro C hnd hmem
    rw [List.foldl_cons]
    rcases List.mem_cons.mp hmem with h | h
    · subst h
      have hni : id ∉ rest := (List.nodup_cons.mp hnd).1
      rw [acFold_valsAt_not_mem I rest _ hni, valsAt_assignId_eq]
    · have hne : id ≠ i := by
        intro he
        exact (List.nodup_cons.mp hnd).1 (he ▸ h)
      rw [ih _ (List.nodup_cons.mp hnd).2 h, valsAt_assignId_ne hne]

theorem acFold_shape {I : Grid} :
    ∀ (ids : List Nat) (C : Grid), sameShape C I →
      sameShape (ids.foldl (fun acc i => Compute4Mask.assignId acc I i) C) I := by
  intro ids
  induction ids with
  | nil => intro C h; exact h
  | cons i rest ih =>
    intro C h
    rw [List.foldl_cons]
    exact ih _ (shape_zipWith2 _ h)

theorem foldl_fixed {α β : Type} {g : β → α → β} :
    ∀ (l : List α) (b : β), (∀ x ∈ l, g b x = b) → l.foldl g b = b := by
  intro l
  induction l with
  | nil => intro b _; rfl
  | cons x xs ih =>
    intro b h
    rw [List.foldl_cons, h x (List.mem_cons_self _ _)]
    exact ih b (fun y hy => h y (List.mem_cons_of_mem _ hy))

theorem assignId_self_id {R I : Grid} {id : Nat} (hs : sameShape R I)
    (hval : ∀ p ∈ pairs R I, p.2 = id → p.1 = majority (valsAt R I id)) :
    Compute4Mask.assignId R I id = R := by
  apply zipWith2_id hs
  intro p hp
  show (if p.2 = id then majority (valsAt R I id) else p.1) = p.1
  by_cases h2 : p.2 = id
  · rw [if_pos h2]
    exact (hval p hp h2).symm
  · rw [if_neg h2]

/-! Claim C1. -/

/-- Claim C1, counterexample: for the mask `[[1,1],[1,1]]` (no background
pixel), `1` is a distinct nonzero value of the mask yet is absent from
`get_unique_objects`, because the slice `[1:]` drops the smallest unique value
unconditionally.  This refutes the claim as stated for arbitrary masks. -/
theorem get_unique_objects_cex :
    1 ∈ flattenG [[1, 1], [1, 1]]
    ∧ 1 ∉ Compute4Mask.get_unique_objects [[1, 1], [1, 1]] := by
  decide

/-- Claim C1 (amended): for every mask that contains at least one background
(`0`) pixel, `get_unique_objects` returns exactly the distinct values of the
mask excluding `0`, in strictly ascending order (hence each at most once), and
`0` is never an element of the result; in particular for an all-zero mask the
result is empty. -/
theorem get_unique_objects_correct (mask : Grid) (h0 : 0 ∈ flattenG mask) :
    (∀ a, a ∈ Compute4Mask.get_unique_objects mask ↔ a ∈ flattenG mask ∧ a ≠ 0)
    ∧ List.Sorted (· < ·) (Compute4Mask.get_unique_objects mask)
    ∧ 0 ∉ Compute4Mask.get_unique_objects mask :=
  ⟨fun _ => mem_gup h0, sorted_gup mask, zero_not_mem_gup mask⟩

/-- Claim C1, witness: the amended theorem applied to `[[0,1],[2,1]]`. -/
theorem get_unique_objects_correct_witness :
    0 ∈ flattenG [[0, 1], [2, 1]]
    ∧ (2 ∈ Compute4Mask.get_unique_objects [[0, 1], [2, 1]]
        ↔ 2 ∈ flattenG [[0, 1], [2, 1]] ∧ 2 ≠ 0) :=
  ⟨by decide, (get_unique_objects_correct [[0, 1], [2, 1]] (by decide)).1 2⟩

/-! Claim C9. -/

theorem acFold_bg {I : Grid} {i j : Nat} (hbg : getPix I i j = 0) :
    ∀ (ids : List Nat) (C : Grid), sameShape C I → (∀ x ∈ ids, x ≠ 0) →
      getPix (ids.foldl (fun acc x => Compute4Mask.assignId acc I x) C) i j
        = getPix C i j := by
  intro ids
  induction ids with
  | nil => intro C _ _; rfl
  | cons x rest ih =>
    intro C hs hnz
    have hx : x ≠ 0 := hnz x (List.mem_cons_self _ _)
    have hs' : sameShape (Compute4Mask.assignId C I x) I := shape_zipWith2 _ hs
    rw [List.foldl_cons,
      ih (Compute4Mask.assignId C I x) hs' (fun y hy => hnz y (List.mem_cons_of_mem _ hy))]
    have hf0 : (fun c i' =>
        if i' = x then majority (valsAt C I x) else c) 0 0 = 0 := by
      simp only [if_neg (Ne.symm hx)]
    show getPix (zipWith2 _ C I) i j = getPix C i j
    rw [getPix_zipWith2 hf0 C I hs i j, hbg]
    simp only [if_neg (Ne.symm hx)]

/-- Claim C9: `add_contour` never changes the class value at background
pixels — for grids of the same shape, at every pixel where the instance mask
is `0` the result agrees with the input class mask. -/
theorem add_contour_frame (C I : Grid) (hs : sameShape C I) (i j : Nat)
    (hbg : getPix I i j = 0) :
    getPix (Compute4Mask.add_contour C I) i j = getPix C i j := by
  unfold Compute4Mask.add_contour
  exact acFold_bg hbg _ C hs
    (fun x hx he => zero_not_mem_gup I (he ▸ hx))

/-- Claim C9, witness: concrete instantiation at a background pixel. -/
theorem add_contour_frame_witness :
    sameShape [[5, 7], [0, 9]] [[1, 0], [0, 2]]
    ∧ getPix [[1, 0], [0, 2]] 0 1 = 0
    ∧ getPix (Compute4Mask.add_contour [[5, 7], [0, 9]] [[1, 0], [0, 2]]) 0 1
        = getPix [[5, 7], [0, 9]] 0 1 :=
  ⟨by decide, by decide, add_contour_frame _ _ (by decide) 0 1 (by decide)⟩

/-! Claim C3. -/

/-- Claim C3, counterexample: with `C = [[5,6],[7,7]]` and `I = [[1,1],[2,2]]`
(no background pixel in `I`), object `1` occurs in `I` but keeps two distinct
class values after `add_contour`, because `get_unique_objects` drops the
smallest id when no `0` pixel exists.  This refutes the claim as stated for
arbitrary same-shape masks. -/
theorem add_contour_uniform_cex :
    1 ∈ flattenG [[1, 1], [2, 2]] ∧ 1 ≠ 0
    ∧ (npUnique (valsAt
        (Compute4Mask.add_contour [[5, 6], [7, 7]] [[1, 1], [2, 2]])
        [[1, 1], [2, 2]] 1)).length ≠ 1 := by
  decide

/-- Claim C3 (amended): for same-shape masks where the instance mask contains
at least one background (`0`) pixel, every object id occurring in `I` ends up
with exactly one distinct class value over its pixel set after
`add_contour(C, I)` — namely, every pixel of the object carries the majority
class value found at the object's pixels in `C`. -/
theorem add_contour_uniform (C I : Grid) (hs : sameShape C I)
    (h0 : 0 ∈ flattenG I) (id : Nat) (hid : id ∈ flattenG I) (hnz : id ≠ 0) :
    (∀ p ∈ pairs (Compute4Mask.add_contour C I) I, p.2 = id →
        p.1 = majority (valsAt C I id))
    ∧ (npUnique (valsAt (Compute4Mask.add_contour C I) I id)).length = 1 := by
  have hmem : id ∈ Compute4Mask.get_unique_objects I := (mem_gup h0).mpr ⟨hid, hnz⟩
  have hrepR : valsAt (Compute4Mask.add_contour C I) I id
      = List.replicate (valsAt C I id).length (majority (valsAt C I id)) :=
    acFold_valsAt_mem I (Compute4Mask.get_unique_objects I) C (nodup_gup I) hmem
  have hlen : (valsAt C I id).length ≠ 0 := by
    intro h
    exact selVals_ne_nil hs hid (List.length_eq_zero.mp h)
  rcases Nat.exists_eq_succ_of_ne_zero hlen with ⟨k, hk⟩
  rw [hk] at hrepR
  constructor
  · intro p hp hpid
    have hp2 : (p.1, id) = p := by rw [← hpid]
    have hmem1 : p.1 ∈ valsAt (Compute4Mask.add_contour C I) I id :=
      mem_selVals (hp2 ▸ hp)
    rw [hrepR] at hmem1
    exact List.eq_of_mem_replicate hmem1
  · rw [hrepR, npUnique_replicate]
    rfl

/-- Claim C3, witness: concrete instantiation with a background pixel. -/
theorem add_contour_uniform_witness :
    (npUnique (valsAt
      (Compute4Mask.add_contour [[0, 5], [7, 7]] [[0, 1], [2, 2]])
      [[0, 1], [2, 2]] 2)).length = 1 :=
  (add_contour_uniform [[0, 5], [7, 7]] [[0, 1], [2, 2]]
    (by decide) (by decide) 2 (by decide) (by decide)).2

/-! Claim C7. -/

/-- Claim C7: `add_contour` is idempotent on same-shape masks — after one
pass every processed object is uniform, so a second pass recomputes the same
majority value for each object and changes nothing. -/
theorem add_contour_idempotent (C I : Grid) (hs : sameShape C I) :
    Compute4Mask.add_contour (Compute4Mask.add_contour C I) I
      = Compute4Mask.add_contour C I := by
  have hRs : sameShape (Compute4Mask.add_contour C I) I := acFold_shape _ C hs
  show (Compute4Mask.get_unique_objects I).foldl
    (fun acc instance_id => Compute4Mask.assignId acc I instance_id)
    (Compute4Mask.add_contour C I) = Compute4Mask.add_contour C I
  apply foldl_fixed
  intro x hx
  apply assignId_self_id hRs
  intro p hp hpx
  have hx0 : x ≠ 0 := fun he => zero_not_mem_gup I (he ▸ hx)
  have hxf : x ∈ flattenG I := gup_subset_flatten hx
  have hrepR : valsAt (Compute4Mask.add_contour C I) I x
      = List.replicate (valsAt C I x).length (majority (valsAt C I x)) :=
    acFold_valsAt_mem I (Compute4Mask.get_unique_objects I) C (nodup_gup I) hx
  have hlen : (valsAt C I x).length ≠ 0 := by
    intro h
    exact selVals_ne_nil hs hxf (List.length_eq_zero.mp h)
  rcases Nat.exists_eq_succ_of_ne_zero hlen with ⟨k, hk⟩
  rw [hk] at hrepR
  have hp2 : (p.1, x) = p := by rw [← hpx]
  have hmem1 : p.1 ∈ valsAt (Compute4Mask.add_contour C I) I x :=
    mem_selVals (hp2 ▸ hp)
  rw [hrepR] at hmem1
  rw [hrepR, majority_replicate _ (Nat.succ_ne_zero k)]
  exact List.eq_of_mem_replicate hmem1

/-- Claim C7, witness: concrete instantiation. -/
theorem add_contour_idempotent_witness :
    Compute4Mask.add_contour
        (Compute4Mask.add_contour [[1, 2], [0, 3]] [[1, 1], [0, 2]])
        [[1, 1], [0, 2]]
      = Compute4Mask.add_contour [[1, 2], [0, 3]] [[1, 1], [0, 2]] :=
  add_contour_idempotent [[1, 2], [0, 3]] [[1, 1], [0, 2]] (by decide)

/-! Claim C6. -/

/-- Claim C6: the majority vote used by `add_contour` and by the fallback
branch of `compute_new_labels_mask` (`vals[np.argmax(counts)]` over the
ascending `np.unique` values) picks a value of maximal count, and on a tie the
LOWEST tied value, since `np.argmax` returns the first maximal index. -/
theorem majority_tie_break (l : List Nat) (h : l ≠ []) :
    majority l ∈ l
    ∧ (∀ v ∈ l, l.count v ≤ l.count (majority l))
    ∧ (∀ v ∈ l, l.count v = l.count (majority l) → majority l ≤ v) :=
  majority_spec h

/-- Claim C6, witness: on `[1,1,2,2]` the values `1` and `2` tie and the
lower value `1` is chosen. -/
theorem majority_tie_break_witness :
    List.count 2 [1, 1, 2, 2] = List.count (majority [1, 1, 2, 2]) [1, 1, 2, 2]
    ∧ majority [1, 1, 2, 2] ≤ 2 ∧ majority [1, 1, 2, 2] = 1 := by
  refine ⟨by decide, ?_, by decide⟩
  exact (majority_tie_break [1, 1, 2, 2] (by decide)).2.2 2 (by decide) (by decide)

/-! Claim C4: a closed pointwise form for `compute_new_instance_mask`. -/

theorem singleton_zero_iff (u : List Nat) :
    (u.length = 1 ∧ u.headD 0 = 0) ↔ u = [0] := by
  cases u with
  | nil => simp
  | cons a t =>
    cases t with
    | nil => simp
    | cons b t' => simp

theorem valsAt_mapG_right {C B : Grid} {g : Nat → Nat} {id : Nat}
    (hg : ∀ b, g b = id ↔ b = id) : valsAt C (mapG g B) id = valsAt C B id := by
  unfold valsAt
  rw [pairs_mapG_right]
  exact selVals_map_snd hg (pairs C B)

/-- Pointwise deletion function that `compute_new_instance_mask` implements:
zero an id of `ids` whose class values are exactly `{0}`; keep others. -/
def delFun (labels_mask instance_mask : Grid) (ids : List Nat) (a : Nat) : Nat :=
  if a ∈ ids ∧ npUnique (valsAt labels_mask instance_mask a) = [0] then 0 else a

theorem cnimStep_pos {C acc : Grid} {i : Nat}
    (h : (npUnique (valsAt C acc i)).length = 1
        ∧ (npUnique (valsAt C acc i)).headD 0 = 0) :
    Compute4Mask.cnimStep C acc i = mapG (fun a => if a = i then 0 else a) acc := by
  unfold Compute4Mask.cnimStep
  rw [if_pos h]

theorem cnimStep_neg {C acc : Grid} {i : Nat}
    (h : ¬ ((npUnique (valsAt C acc i)).length = 1
        ∧ (npUnique (valsAt C acc i)).headD 0 = 0)) :
    Compute4Mask.cnimStep C acc i = acc := by
  unfold Compute4Mask.cnimStep
  rw [if_neg h]

theorem cnimFold_closed (C I : Grid) :
    ∀ (ids : List Nat) (acc : Grid), ids.Nodup → (∀ x ∈ ids, x ≠ 0) →
      (∀ id ∈ ids, valsAt C acc id = valsAt C I id) →
      ids.foldl (Compute4Mask.cnimStep C) acc = mapG (delFun C I ids) acc := by
  intro ids
  induction ids with
  | nil =>
    intro acc _ _ _
    rw [List.foldl_nil]
    have h : ∀ a, delFun C I [] a = a := by
      intro a
      simp [delFun]
    rw [mapG_congr h, mapG_id]
  | cons i rest ih =>
    intro acc hnd hnz hval
    have hi0 : i ≠ 0 := hnz i (List.mem_cons_self _ _)
    have hir : i ∉ rest := (List.nodup_cons.mp hnd).1
    have hvi : valsAt C acc i = valsAt C I i := hval i (List.mem_cons_self _ _)
    rw [List.foldl_cons]
    by_cases hc : npUnique (valsAt C I i) = [0]
    · have hcond : (npUnique (valsAt C acc i)).length = 1
          ∧ (npUnique (valsAt C acc i)).headD 0 = 0 := by
        rw [hvi]
        exact (singleton_zero_iff _).mpr hc
      rw [cnimStep_pos hcond]
      have hg : ∀ id', id' ∈ rest → (∀ b, (if b = i then 0 else b) = id' ↔ b = id') := by
        intro id' hid' b
        have hne0 : id' ≠ 0 := hnz id' (List.mem_cons_of_mem _ hid')
        have hnei : i ≠ id' := fun he => hir (he ▸ hid')
        by_cases hb : b = i
        · rw [if_pos hb]
          constructor
          · intro h0'
            exact absurd h0'.symm hne0
          · intro hbid
            exact absurd (hb.symm.trans hbid) hnei
        · rw [if_neg hb]
      have hrest : ∀ id' ∈ rest,
          valsAt C (mapG (fun a => if a = i then 0 else a) acc) id' = valsAt C I id' := by
        intro id' hid'
        rw [valsAt_mapG_right (hg id' hid'), hval id' (List.mem_cons_of_mem _ hid')]
      rw [ih _ (List.nodup_cons.mp hnd).2
        (fun y hy => hnz y (List.mem_cons_of_mem _ hy)) hrest, mapG_comp]
      apply mapG_congr
      intro a
      by_cases ha : a = i
      · subst ha
        simp [delFun, hc]
      · simp only [if_neg ha]
        unfold delFun
        have hmm : (a ∈ rest) ↔ (a ∈ i :: rest) := by
          constructor
          · exact List.mem_cons_of_mem _
          · intro h
            rcases List.mem_cons.mp h with h | h
            · exact absurd h ha
            · exact h
        simp only [hmm]
    · have hcond : ¬ ((npUnique (valsAt C acc i)).length = 1
          ∧ (npUnique (valsAt C acc i)).headD 0 = 0) := by
        rw [hvi]
        intro hcontra
        exact hc ((singleton_zero_iff _).mp hcontra)
      rw [cnimStep_neg hcond]
      rw [ih acc (List.nodup_cons.mp hnd).2
        (fun y hy => hnz y (List.mem_cons_of_mem _ hy))
        (fun id' hid' => hval id' (List.mem_cons_of_mem _ hid'))]
      apply mapG_congr
      intro a
      by_cases ha : a = i
      · subst ha
        simp [delFun, hc, hir]
      · unfold delFun
        have hmm : (a ∈ rest) ↔ (a ∈ i :: rest) := by
          constructor
          · exact List.mem_cons_of_mem _
          · intro h
            rcases List.mem_cons.mp h with h | h
            · exact absurd h ha
            · exact h
        simp only [hmm]

theorem cnim_closed (C I : Grid) :
    Compute4Mask.compute_new_instance_mask C I
      = mapG (delFun C I (Compute4Mask.get_unique_objects I)) I := by
  unfold Compute4Mask.compute_new_instance_mask
  exact cnimFold_closed C I _ I (nodup_gup I)
    (fun x hx h0 => zero_not_mem_gup I (h0 ▸ hx)) (fun _ _ => rfl)

/-- Claim C4, counterexample: with `I = [[1,1],[1,1]]` (no background pixel)
and an all-background edited class mask, object `1` has every pixel background
in the class mask yet is NOT zeroed out, because `get_unique_objects` drops
the smallest id when the instance mask has no `0` pixel. -/
theorem compute_new_instance_mask_cex :
    npUnique (valsAt [[0, 0], [0, 0]] [[1, 1], [1, 1]] 1) = [0]
    ∧ Compute4Mask.compute_new_instance_mask [[0, 0], [0, 0]] [[1, 1], [1, 1]]
        = [[1, 1], [1, 1]]
    ∧ getPix (Compute4Mask.compute_new_instance_mask [[0, 0], [0, 0]] [[1, 1], [1, 1]]) 0 0
        ≠ 0 := by
  decide

/-- Claim C4 (amended): for same-shape masks where the instance mask contains
at least one background pixel, `compute_new_instance_mask` zeroes exactly the
pixels of objects whose class values are all background, leaves every other
pixel of the instance mask unchanged, and the id set of the result is a
subset of the id set of the input. -/
theorem compute_new_instance_mask_correct (C I : Grid) (hs : sameShape C I)
    (h0 : 0 ∈ flattenG I) :
    (∀ i j, getPix (Compute4Mask.compute_new_instance_mask C I) i j
        = if getPix I i j ≠ 0 ∧ npUnique (valsAt C I (getPix I i j)) = [0]
          then 0 else getPix I i j)
    ∧ (∀ id, id ∈ flattenG I → id ≠ 0 →
        (npUnique (valsAt C I id) = [0] ↔ ∀ v ∈ valsAt C I id, v = 0))
    ∧ (∀ v, v ∈ Compute4Mask.get_unique_objects (Compute4Mask.compute_new_instance_mask C I)
        → v ∈ Compute4Mask.get_unique_objects I) := by
  have hclosed := cnim_closed C I
  refine ⟨?_, ?_, ?_⟩
  · intro i j
    have hdel0 : delFun C I (Compute4Mask.get_unique_objects I) 0 = 0 := by
      unfold delFun
      split
      · rfl
      · rfl
    rw [hclosed, getPix_mapG hdel0]
    by_cases hb : getPix I i j = 0
    · rw [hb]
      rw [hdel0]
      simp
    · have hbf : getPix I i j ∈ flattenG I := getPix_ne_zero_mem hb
      have hmem : getPix I i j ∈ Compute4Mask.get_unique_objects I :=
        (mem_gup h0).mpr ⟨hbf, hb⟩
      unfold delFun
      by_cases hcond : npUnique (valsAt C I (getPix I i j)) = [0]
      · rw [if_pos ⟨hmem, hcond⟩, if_pos ⟨hb, hcond⟩]
      · rw [if_neg (fun hcc => hcond hcc.2), if_neg (fun hcc => hcond hcc.2)]
  · intro id hidf hidnz
    exact npUnique_eq_zero_iff (selVals_ne_nil hs hidf)
  · intro v hv
    have hvnz : v ≠ 0 := fun he => zero_not_mem_gup _ (he ▸ hv)
    have hvf : v ∈ flattenG (Compute4Mask.compute_new_instance_mask C I) :=
      gup_subset_flatten hv
    rw [hclosed, flattenG_mapG] at hvf
    rcases List.mem_map.mp hvf with ⟨a, haf, hav⟩
    have hva : a = v := by
      unfold delFun at hav
      by_cases hc : a ∈ Compute4Mask.get_unique_objects I
          ∧ npUnique (valsAt C I a) = [0]
      · rw [if_pos hc] at hav
        exact absurd hav.symm hvnz
      · rw [if_neg hc] at hav
        exact hav
    exact (mem_gup h0).mpr ⟨hva ▸ haf, hvnz⟩

/-- Claim C4, witness: object 1 (all-background in the class mask) is deleted
and object 2 is kept. -/
theorem compute_new_instance_mask_correct_witness :
    getPix (Compute4Mask.compute_new_instance_mask
      [[0, 0, 0], [0, 7, 7]] [[1, 1, 0], [0, 2, 2]]) 0 0 = 0
    ∧ getPix (Compute4Mask.compute_new_instance_mask
      [[0, 0, 0], [0, 7, 7]] [[1, 1, 0], [0, 2, 2]]) 1 1 = 2 :=
  ⟨((compute_new_instance_mask_correct [[0, 0, 0], [0, 7, 7]] [[1, 1, 0], [0, 2, 2]]
      (by decide) (by decide)).1 0 0).trans (by decide),
   ((compute_new_instance_mask_correct [[0, 0, 0], [0, 7, 7]] [[1, 1, 0], [0, 2, 2]]
      (by decide) (by decide)).1 1 1).trans (by decide)⟩

/-! Claim C5: a closed pointwise form for `compute_new_labels_mask`. -/

theorem cnlmStep_zero {labels_mask instance_mask original_instance_mask : Grid}
    {old_instances : List Nat} {acc : Grid} :
    Compute4Mask.cnlmStep labels_mask instance_mask original_instance_mask
      old_instances acc 0 = acc := by
  unfold Compute4Mask.cnlmStep
  rw [if_pos rfl]

theorem cnlmStep_pos {labels_mask instance_mask original_instance_mask : Grid}
    {old_instances : List Nat} {acc : Grid} {i : Nat} (h : i ≠ 0) :
    Compute4Mask.cnlmStep labels_mask instance_mask original_instance_mask
        old_instances acc i
      = zipWith2
          (fun a b =>
            if b = i then
              Compute4Mask.newVal labels_mask instance_mask original_instance_mask
                old_instances i
            else a)
          acc instance_mask := by
  unfold Compute4Mask.cnlmStep
  rw [if_neg h]

theorem cnlmFold_closed (labels_mask instance_mask original_instance_mask : Grid)
    (old_instances : List Nat) :
    ∀ (ids : List Nat) (acc : Grid), sameShape acc instance_mask →
      ids.foldl (Compute4Mask.cnlmStep labels_mask instance_mask
        original_instance_mask old_instances) acc
      = zipWith2
          (fun a b =>
            if b ∈ ids ∧ b ≠ 0 then
              Compute4Mask.newVal labels_mask instance_mask original_instance_mask
                old_instances b
            else a)
          acc instance_mask := by
  intro ids
  induction ids with
  | nil =>
    intro acc hsh
    rw [List.foldl_nil]
    symm
    apply zipWith2_id hsh
    intro p _
    simp
  | cons i rest ih =>
    intro acc hsh
    rw [List.foldl_cons]
    by_cases hi : i = 0
    · subst hi
      rw [cnlmStep_zero, ih acc hsh]
      apply zipWith2_congr
      intro a b
      by_cases hb : b = 0
      · subst hb
        rw [if_neg (fun hcc => hcc.2 rfl), if_neg (fun hcc => hcc.2 rfl)]
      · refine if_congr ?_ rfl rfl
        constructor
        · intro ⟨h1, h2⟩
          exact ⟨List.mem_cons_of_mem _ h1, h2⟩
        · intro ⟨h1, h2⟩
          rcases List.mem_cons.mp h1 with h1 | h1
          · exact absurd h1 hb
          · exact ⟨h1, h2⟩
    · rw [cnlmStep_pos hi]
      have hsh' : sameShape (zipWith2
          (fun a b =>
            if b = i then
              Compute4Mask.newVal labels_mask instance_mask original_instance_mask
                old_instances i
            else a) acc instance_mask) instance_mask := shape_zipWith2 _ hsh
      rw [ih _ hsh', zipWith2_comp]
      apply zipWith2_congr
      intro a b
      by_cases hb : b = i
      · subst hb
        rw [if_pos rfl, ite_self, if_pos ⟨List.mem_cons_self _ _, hi⟩]
      · rw [if_neg hb]
        refine if_congr ?_ rfl rfl
        constructor
        · intro ⟨h1, h2⟩
          exact ⟨List.mem_cons_of_mem _ h1, h2⟩
        · intro ⟨h1, h2⟩
          rcases List.mem_cons.mp h1 with h1 | h1
          · exact absurd h1 hb
          · exact ⟨h1, h2⟩

theorem cnlm_pix (labels_mask instance_mask original_instance_mask : Grid)
    (old_instances : List Nat) (hs : sameShape labels_mask instance_mask) (i j : Nat) :
    getPix (Compute4Mask.compute_new_labels_mask labels_mask instance_mask
        original_instance_mask old_instances) i j
      = if getPix instance_mask i j = 0 then 0
        else Compute4Mask.newVal labels_mask instance_mask original_instance_mask
          old_instances (getPix instance_mask i j) := by
  have hz : sameShape (zeroGrid labels_mask) instance_mask :=
    sameShape_trans (shape_zeroGrid labels_mask) hs
  have hclosed := cnlmFold_closed labels_mask instance_mask original_instance_mask
    old_instances (npUnique (flattenG instance_mask)) (zeroGrid labels_mask) hz
  show getPix ((npUnique (flattenG instance_mask)).foldl _ (zeroGrid labels_mask)) i j = _
  rw [hclosed]
  have hf0 : (fun a b =>
      if b ∈ npUnique (flattenG instance_mask) ∧ b ≠ 0 then
        Compute4Mask.newVal labels_mask instance_mask original_instance_mask
          old_instances b
      else a) 0 0 = 0 := by
    simp
  rw [getPix_zipWith2 hf0 _ instance_mask hz i j, getPix_zeroGrid]
  by_cases hb : getPix instance_mask i j = 0
  · rw [hb, if_pos rfl, if_neg (fun hcc => hcc.2 rfl)]
  · have hmem : getPix instance_mask i j ∈ npUnique (flattenG instance_mask) :=
      mem_npUnique.mpr (getPix_ne_zero_mem hb)
    rw [if_neg hb, if_pos ⟨hmem, hb⟩]

/-- Claim C5: `compute_new_labels_mask(labels_mask, instance_mask,
original_instance_mask, old_instances)` (the spec names these
`prior_class_mask`, `edited_instance_mask`, `prior_instance_mask` and
`known_ids`) returns a grid that is `0` at background pixels; at the pixels of
an id not in `old_instances` it holds the id itself as a placeholder; for an
id in `old_instances` with exactly one distinct class value over its edited
pixel set it holds that value; otherwise it holds the majority class value at
the id's original pixel locations (the last clause is stated under the
assumption that the id still has original pixels, without which numpy's
`argmax` of empty counts would raise). -/
theorem compute_new_labels_mask_correct
    (labels_mask instance_mask original_instance_mask : Grid)
    (old_instances : List Nat) (hs : sameShape labels_mask instance_mask) :
    (∀ i j, getPix instance_mask i j = 0 →
      getPix (Compute4Mask.compute_new_labels_mask labels_mask instance_mask
        original_instance_mask old_instances) i j = 0)
    ∧ (∀ i j, getPix instance_mask i j ≠ 0 →
        getPix instance_mask i j ∉ old_instances →
        getPix (Compute4Mask.compute_new_labels_mask labels_mask instance_mask
          original_instance_mask old_instances) i j = getPix instance_mask i j)
    ∧ (∀ i j c, getPix instance_mask i j ≠ 0 →
        getPix instance_mask i j ∈ old_instances →
        npUnique (valsAt labels_mask instance_mask (getPix instance_mask i j)) = [c] →
        getPix (Compute4Mask.compute_new_labels_mask labels_mask instance_mask
          original_instance_mask old_instances) i j = c)
    ∧ (∀ i j, getPix instance_mask i j ≠ 0 →
        getPix instance_mask i j ∈ old_instances →
        (npUnique (valsAt labels_mask instance_mask (getPix instance_mask i j))).length ≠ 1 →
        valsAt labels_mask original_instance_mask (getPix instance_mask i j) ≠ [] →
        getPix (Compute4Mask.compute_new_labels_mask labels_mask instance_mask
            original_instance_mask old_instances) i j
          = majority (valsAt labels_mask original_instance_mask
              (getPix instance_mask i j))) := by
  refine ⟨?_, ?_, ?_, ?_⟩
  · intro i j hb
    rw [cnlm_pix labels_mask instance_mask original_instance_mask old_instances hs i j,
      if_pos hb]
  · intro i j hb hold
    rw [cnlm_pix labels_mask instance_mask original_instance_mask old_instances hs i j,
      if_neg hb]
    unfold Compute4Mask.newVal
    rw [if_neg hold]
  · intro i j c hb hold hone
    rw [cnlm_pix labels_mask instance_mask original_instance_mask old_instances hs i j,
      if_neg hb]
    unfold Compute4Mask.newVal
    rw [if_pos hold, if_pos (by rw [hone]; rfl), hone]
    rfl
  · intro i j hb hold hmulti _
    rw [cnlm_pix labels_mask instance_mask original_instance_mask old_instances hs i j,
      if_neg hb]
    unfold Compute4Mask.newVal
    rw [if_pos hold, if_neg hmulti]

/-- Claim C5, witness: the spec's reconciliation example — object `1` grew by
one pixel, so its edited pixel set sees classes `{0, 4}` and the majority
class `4` at its original pixels is assigned to all three pixels. -/
theorem compute_new_labels_mask_correct_witness :
    getPix (Compute4Mask.compute_new_labels_mask
        [[4, 4], [0, 0]] [[1, 1], [1, 0]] [[1, 1], [0, 0]] [1]) 1 0 = 4
    ∧ Compute4Mask.compute_new_labels_mask
        [[4, 4], [0, 0]] [[1, 1], [1, 0]] [[1, 1], [0, 0]] [1] = [[4, 4], [4, 0]] := by
  constructor
  · have h := (compute_new_labels_mask_correct
      [[4, 4], [0, 0]] [[1, 1], [1, 0]] [[1, 1], [0, 0]] [1] (by decide)).2.2.2
      1 0 (by decide) (by decide) (by decide) (by decide)
    exact h.trans (by decide)
  · decide

/-! Claim C8. -/

theorem foldl_skip_none {α β : Type} (g : β → α → β) (p : α → Bool)
    (hid : ∀ acc x, p x = false → g acc x = acc) :
    ∀ (l : List α) (acc : β), l.foldl g acc = (l.filter p).foldl g acc := by
  intro l
  induction l with
  | nil => intro acc; rfl
  | cons x xs ih =>
    intro acc
    rw [List.foldl_cons, List.filter_cons]
    cases hp : p x
    · rw [hid acc x hp, if_neg (by simp [hp])]
      exact ih acc
    · rw [if_pos (by simp [hp]), List.foldl_cons]
      exact ih (g acc x)

/-- Claim C8: a contour-tracing failure (modelled as `none` from the external
tracing oracles, covering any exception caught by the bare `except`) makes
`get_contours` skip exactly that object: for every choice of oracles the
result equals the fold over only the ids whose tracing succeeds, so one
object's failure never aborts the call nor affects the pixels drawn for the
other objects. -/
theorem get_contours_skip_failures {α : Type} (fc : Grid → Option (List α))
    (size : α → Nat) (pp : α → Option (List (Nat × Nat))) (instance_mask : Grid) :
    Compute4Mask.get_contours fc size pp instance_mask
      = ((Compute4Mask.get_unique_objects instance_mask).filter
          (fun id => (Compute4Mask.traceObj fc size pp instance_mask id).isSome)).foldl
          (Compute4Mask.gcStep (Compute4Mask.traceObj fc size pp instance_mask))
          (zeroGrid instance_mask) := by
  unfold Compute4Mask.get_contours
  apply foldl_skip_none
  intro acc x hx
  have hnone : Compute4Mask.traceObj fc size pp instance_mask x = none := by
    cases ht : Compute4Mask.traceObj fc size pp instance_mask x
    · rfl
    · rw [ht] at hx
      simp at hx
  unfold Compute4Mask.gcStep
  rw [hnone]

/-! Claims C10 and C2. -/

theorem aclFold_closed (labelCC : List (List Bool) → Grid) (iM cM : Grid) :
    ∀ (ids : List Nat) (ae me : Bool) (la lm : List Nat),
      ids.foldl (Compute4Mask.aclStep labelCC iM cM) (ae, me, la, lm)
        = (ae || ids.any (fun id =>
              decide ((npUnique (flattenG (labelCC (Compute4Mask.binMask iM id)))).length > 2)),
           me || ids.any (fun id =>
              decide ((npUnique (valsAt cM iM id)).length > 1)),
           la ++ ids.filter (fun id =>
              decide ((npUnique (flattenG (labelCC (Compute4Mask.binMask iM id)))).length > 2)),
           lm ++ ids.filter (fun id =>
              decide ((npUnique (valsAt cM iM id)).length > 1))) := by
  intro ids
  induction ids with
  | nil =>
    intro ae me la lm
    simp
  | cons i rest ih =>
    intro ae me la lm
    rw [List.foldl_cons]
    by_cases hA : (npUnique (flattenG (labelCC (Compute4Mask.binMask iM i)))).length > 2
      <;> by_cases hM : (npUnique (valsAt cM iM i)).length > 1
    · have hstep : Compute4Mask.aclStep labelCC iM cM (ae, me, la, lm) i
          = (true, true, la ++ [i], lm ++ [i]) := by
        simp only [Compute4Mask.aclStep, if_pos hA, if_pos hM]
      rw [hstep, ih]
      simp [List.any_cons, List.filter_cons, hA, hM, List.append_assoc]
    · have hstep : Compute4Mask.aclStep labelCC iM cM (ae, me, la, lm) i
          = (true, me, la ++ [i], lm) := by
        simp only [Compute4Mask.aclStep, if_pos hA, if_neg hM]
      rw [hstep, ih]
      simp [List.any_cons, List.filter_cons, hA, hM, List.append_assoc]
    · have hstep : Compute4Mask.aclStep labelCC iM cM (ae, me, la, lm) i
          = (ae, true, la, lm ++ [i]) := by
        simp only [Compute4Mask.aclStep, if_neg hA, if_pos hM]
      rw [hstep, ih]
      simp [List.any_cons, List.filter_cons, hA, hM, List.append_assoc]
    · have hstep : Compute4Mask.aclStep labelCC iM cM (ae, me, la, lm) i
          = (ae, me, la, lm) := by
        simp only [Compute4Mask.aclStep, if_neg hA, if_neg hM]
      rw [hstep, ih]
      simp [List.any_cons, List.filter_cons, hA, hM]

theorem any_iff_filter_ne {α : Type} (p : α → Bool) :
    ∀ l : List α, l.any p = true ↔ l.filter p ≠ [] := by
  intro l
  induction l with
  | nil => simp
  | cons x xs ih =>
    cases hp : p x
    · simp [List.any_cons, List.filter_cons, hp, ih]
    · simp [List.any_cons, List.filter_cons, hp]

/-- Claim C10: in the result of `assert_consistent_labels` (for every
connected-component oracle and mask pair), the annotation-error flag is `true`
exactly when `faulty_ids_annot` is non-empty, the mismatch flag is `true`
exactly when `faulty_ids_missmatch` is non-empty, and both lists are strictly
ascending (hence contain each id at most once). -/
theorem assert_consistent_labels_coherent (labelCC : List (List Bool) → Grid)
    (mask : Grid × Grid) :
    ((Compute4Mask.assert_consistent_labels labelCC mask).1 = true
      ↔ (Compute4Mask.assert_consistent_labels labelCC mask).2.2.1 ≠ [])
    ∧ ((Compute4Mask.assert_consistent_labels labelCC mask).2.1 = true
      ↔ (Compute4Mask.assert_consistent_labels labelCC mask).2.2.2 ≠ [])
    ∧ List.Sorted (· < ·) (Compute4Mask.assert_consistent_labels labelCC mask).2.2.1
    ∧ List.Sorted (· < ·) (Compute4Mask.assert_consistent_labels labelCC mask).2.2.2 := by
  have hc := aclFold_closed labelCC mask.1 mask.2
    (Compute4Mask.get_unique_objects mask.1) false false [] []
  unfold Compute4Mask.assert_consistent_labels
  rw [hc]
  simp only [Bool.false_or, List.nil_append]
  refine ⟨any_iff_filter_ne _ _, any_iff_filter_ne _ _, ?_, ?_⟩
  · exact List.Pairwise.sublist (List.filter_sublist _) (sorted_gup mask.1)
  · exact List.Pairwise.sublist (List.filter_sublist _) (sorted_gup mask.1)

/-- Claim C2: on the spec's example 3, `instance_mask = [[1,1],[1,1]]` and
`class_mask = [[3,3],[3,9]]`, the code returns NO error at all — the instance
mask has no background pixel, so `get_unique_objects` drops id `1` and the
validation loop never runs.  The spec (and the function's own docstring, which
promises detection of instance ids mapped to several classes) expects
`mismatch_error = True` with `faulty_mismatch_ids = [1]`; the code diverges.
The result holds for every connected-component oracle, which is never
invoked. -/
theorem assert_consistent_labels_no_background_bug (labelCC : List (List Bool) → Grid) :
    Compute4Mask.assert_consistent_labels labelCC ([[1, 1], [1, 1]], [[3, 3], [3, 9]])
      = (false, false, [], []) := rfl
